import Mathlib

/-!
Shallow embedding of the visurf-api-gateway load-balancing core:
the `LoadBalancer` class and `getLoadBalancer` singleton of
`src/services/loadBalancer.js`, and the load-balanced render dispatch route
(the POST handler that selects a worker, forwards the request and records the
outcome).

Modelling conventions:
- JS numbers are `Int` where values can go negative (weighted-round-robin
  accumulators, connection counts) and `Nat` for counts, indices and
  timestamps.
- Worker ids are opaque tokens compared only for equality; they are modelled
  as `Nat`.
- The JS `Map` that the code iterates (`this.circuitBreaker`) is modelled as
  an insertion-ordered association list.  The `Map`s used only through
  `get`/`set` with a `|| 0` default (`this.roundRobinIndex`,
  `this.currentWeights`) are modelled as total functions with default 0.
  The string keys `rr-<serviceType>` and `wrr-<serviceType>-<workerId>` are
  modelled as `serviceType` and the pair `(serviceType, workerId)`.
- `Date.now()` is passed in explicitly as a `now : Nat` parameter.
-/

/-- Worker status as carried by a registry record (`online | offline | busy`). -/
inductive WStatus where
  | online
  | offline
  | busy
deriving DecidableEq, Repr

/-- A worker registry record as consumed by the balancer and dispatcher. -/
structure Worker where
  id : Nat
  name : String
  host : String
  port : Nat
  serviceType : String
  weight : Int
  current_connections : Int
  avg_response_time : Int
  status : WStatus
deriving DecidableEq, Repr

/-- One circuit-breaker entry: `(workerId, (failureCount, lastFailureTimestamp))`. -/
abbrev BreakerEntry := Nat × Nat × Nat

/-- `this.circuitBreaker`: a JS `Map` from worker id to failure record,
in insertion order. -/
abbrev Breaker := List BreakerEntry

/-- `this.circuitBreaker.get(workerId)`. -/
def lookupB : Breaker → Nat → Option (Nat × Nat)
  | [], _ => none
  | e :: es, wid => if e.1 = wid then some e.2 else lookupB es wid

/-- `this.circuitBreaker.delete(workerId)` (a JS `Map` holds at most one
entry per key). -/
def eraseKey (wid : Nat) (br : Breaker) : Breaker :=
  br.filter (fun e => decide (e.1 ≠ wid))

/-- Default failure threshold of `isCircuitOpen`. -/
def breakerThreshold : Nat := 5

/-- Default open-state timeout (ms) of `isCircuitOpen`. -/
def breakerTimeout : Nat := 60000

/-- `recordFailure(workerId)`: upsert the entry, increment its count and
refresh its timestamp to now; `Map.set` keeps the position of an existing
key and appends a new one. -/
def recordFailure (now wid : Nat) : Breaker → Breaker
  | [] => [(wid, 1, now)]
  | e :: es =>
      if e.1 = wid then (wid, e.2.1 + 1, now) :: es
      else e :: recordFailure now wid es

/-- `recordSuccess(workerId)`: delete the entry entirely. -/
def recordSuccess (wid : Nat) (br : Breaker) : Breaker :=
  eraseKey wid br

/-- `isCircuitOpen(workerId, threshold = 5, timeout = 60000)`.  Deleting the
expired entry is a side effect on the map, so the updated map is returned
alongside the verdict. -/
def isCircuitOpen (now wid threshold timeout : Nat) (br : Breaker) :
    Bool × Breaker :=
  match lookupB br wid with
  | none => (false, br)
  | some p =>
      if threshold ≤ p.1 then
        if now - p.2 < timeout then (true, br)
        else (false, eraseKey wid br)
      else (false, br)

/-- The scan of `resetOldestCircuit`: the JS loop seeds `oldestTime` with
`Infinity`, so the first entry always becomes the candidate; later entries
replace it only on a strictly smaller timestamp. -/
def oldestAux (q : Nat × Nat) : Breaker → Nat × Nat
  | [] => q
  | e :: es => oldestAux (if e.2.2 < q.2 then (e.1, e.2.2) else q) es

/-- The `(key, timestamp)` pair with the oldest timestamp, `none` on an
empty map. -/
def oldestEntry : Breaker → Option (Nat × Nat)
  | [] => none
  | e :: es => some (oldestAux (e.1, e.2.2) es)

/-- `resetOldestCircuit()`: delete the entry with the oldest
`lastFailureTimestamp`, if any. -/
def resetOldestCircuit (br : Breaker) : Breaker :=
  match oldestEntry br with
  | none => br
  | some q => eraseKey q.1 br

/-- Key of a `currentWeights` accumulator: `(serviceType, workerId)`,
standing for the string key `wrr-<serviceType>-<workerId>`. -/
abbrev WKey := String × Nat

/-- The mutable state of the `LoadBalancer` class. -/
structure LoadBalancer where
  strategy : String
  roundRobinIndex : String → Nat
  currentWeights : WKey → Int
  circuitBreaker : Breaker

/-- `new LoadBalancer(strategy)`: empty maps (`get(k) || 0` reads 0). -/
def mkLoadBalancer (strategy : String) : LoadBalancer :=
  { strategy := strategy
    roundRobinIndex := fun _ => 0
    currentWeights := fun _ => 0
    circuitBreaker := [] }

/-- Modelled from the spec: the worker store's `getWorkersByService` /
`listByServiceType` is not present under `src` (only its callers are).  The
spec: "returns all records (any status) for that type; the core is
responsible for status/eligibility filtering, not the registry". -/
def getWorkersByService (registry : List Worker) (serviceType : String) :
    List Worker :=
  registry.filter (fun w => w.serviceType == serviceType)

/-- `roundRobin(workers, serviceType)`: per-serviceType cursor, pick
`workers[cursor % workers.length]`, increment the cursor. -/
def roundRobin (workers : List Worker) (serviceType : String)
    (idx : String → Nat) : Option Worker × (String → Nat) :=
  let current := idx serviceType
  (workers[current % workers.length]?,
   fun k => if k = serviceType then current + 1 else idx k)

/-- The `reduce` callback of `leastConnections`: keep the candidate with the
strictly smaller `current_connections`, so ties keep the earlier one. -/
def lcStep (m x : Worker) : Worker :=
  if x.current_connections < m.current_connections then x else m

/-- `leastConnections(workers)`: `reduce` over the candidates; `reduce` on an
empty list has no initial value, modelled as `none`. -/
def leastConnections : List Worker → Option Worker
  | [] => none
  | w :: ws => some (ws.foldl lcStep w)

/-- `avg_response_time || Infinity`: a zero (falsy) average counts as
infinite. `none` stands for `Infinity`. -/
def avgOrInf (w : Worker) : Option Int :=
  if w.avg_response_time = 0 then none else some w.avg_response_time

/-- `a < b` with `none` as `Infinity`. -/
def respLt : Option Int → Option Int → Bool
  | some x, some y => decide (x < y)
  | some _, none => true
  | none, _ => false

/-- `responseTime(workers)`: `reduce` keeping the strictly faster average. -/
def responseTime : List Worker → Option Worker
  | [] => none
  | w :: ws =>
      some (ws.foldl
        (fun fastest x => if respLt (avgOrInf x) (avgOrInf fastest) then x else fastest) w)

/-- One iteration of the `weightedRoundRobin` scan: add the static weight
to the accumulator, store it back, extend the total, and replace the best
candidate on a strictly greater accumulator (`maxWeight` starts at
`-Infinity`, modelled by `none`, so the first candidate always wins the
empty comparison). -/
def wrrStep (serviceType : String)
    (acc : Int × Option (Worker × Int) × (WKey → Int)) (w : Worker) :
    Int × Option (Worker × Int) × (WKey → Int) :=
  let m := acc.2.2
  let c := m (serviceType, w.id) + w.weight
  let m2 : WKey → Int := fun k => if k = (serviceType, w.id) then c else m k
  let best :=
    match acc.2.1 with
    | none => some (w, c)
    | some b => if b.2 < c then some (w, c) else some b
  (acc.1 + w.weight, best, m2)

/-- `weightedRoundRobin(workers, serviceType)` (smooth weighted round robin):
scan all candidates, then subtract the total weight from the winner's
accumulator. -/
def weightedRoundRobin (workers : List Worker) (serviceType : String)
    (cw : WKey → Int) : Option Worker × (WKey → Int) :=
  let r := workers.foldl (wrrStep serviceType) (0, none, cw)
  match r.2.1 with
  | none => (none, r.2.2)
  | some b =>
      (some b.1,
       fun k =>
         if k = (serviceType, b.1.id) then r.2.2 (serviceType, b.1.id) - r.1
         else r.2.2 k)

/-- The `switch (this.strategy)` of `selectWorker`: unknown strategy names
fall back to weighted round robin. -/
def applyStrategy (lb : LoadBalancer) (workers : List Worker)
    (serviceType : String) : Option Worker × LoadBalancer :=
  if lb.strategy = "round-robin" then
    let r := roundRobin workers serviceType lb.roundRobinIndex
    (r.1, { lb with roundRobinIndex := r.2 })
  else if lb.strategy = "least-connections" then
    (leastConnections workers, lb)
  else if lb.strategy = "response-time" then
    (responseTime workers, lb)
  else
    let r := weightedRoundRobin workers serviceType lb.currentWeights
    (r.1, { lb with currentWeights := r.2 })

/-- `workers.filter(w => !this.isCircuitOpen(w.id))`: the filter queries the
breaker left to right, threading the expiry deletions `isCircuitOpen`
performs. -/
def filterAvailable (now : Nat) (workers : List Worker) (br : Breaker) :
    List Worker × Breaker :=
  match workers with
  | [] => ([], br)
  | w :: ws =>
      let r := isCircuitOpen now w.id breakerThreshold breakerTimeout br
      let rest := filterAvailable now ws r.2
      (if r.1 then rest.1 else w :: rest.1, rest.2)

/-- `selectWorker(serviceType)`, with an explicit fuel bounding the
self-recursion of the all-circuits-open branch; `none` marks fuel
exhaustion.  The third component counts the `resetOldestCircuit` calls
(the recursion depth of the retry path). -/
def selectWorkerFuel (now : Nat) (registry : List Worker)
    (serviceType : String) :
    Nat → LoadBalancer → Option (Option Worker × LoadBalancer × Nat)
  | 0, _ => none
  | Nat.succ fuel, lb =>
      let workers := getWorkersByService registry serviceType
      if workers.isEmpty then some (none, lb, 0)
      else
        let fa := filterAvailable now workers lb.circuitBreaker
        let lb1 : LoadBalancer := { lb with circuitBreaker := fa.2 }
        if fa.1.isEmpty then
          let lb2 : LoadBalancer :=
            { lb1 with circuitBreaker := resetOldestCircuit fa.2 }
          match selectWorkerFuel now registry serviceType fuel lb2 with
          | none => none
          | some r => some (r.1, r.2.1, r.2.2 + 1)
        else
          let r := applyStrategy lb1 fa.1 serviceType
          some (r.1, r.2, 0)

/-- `selectWorker(serviceType)`: each pass of the all-open branch deletes one
breaker entry, so one unit of fuel per breaker entry (plus one) always
suffices; the fallback is unreachable (proved below). -/
def selectWorker (now : Nat) (registry : List Worker) (serviceType : String)
    (lb : LoadBalancer) : Option Worker × LoadBalancer × Nat :=
  (selectWorkerFuel now registry serviceType (lb.circuitBreaker.length + 1) lb).getD
    (none, lb, 0)

/-- `getLoadBalancer(strategy)`: module-level singleton; the construction
happens only when no instance exists yet. -/
def getLoadBalancer (strategy : String) (inst : Option LoadBalancer) :
    LoadBalancer × Option LoadBalancer :=
  match inst with
  | none =>
      let lb := mkLoadBalancer strategy
      (lb, some lb)
  | some lb => (lb, some lb)

/-- Response classes of the render dispatch handler: the two 400
validations, the 503 no-worker reply, the 500 `WORKER_ERROR` reply of the
inner catch, the 500 `RENDER_ERROR` reply of the outer catch, and the 200
success reply. -/
inductive DispatchResp where
  | badRequest
  | noWorker
  | workerError
  | renderError
  | ok
deriving DecidableEq, Repr

/-- The environment of one run of the render dispatch handler: the outcome
of request validation, of `selectWorker`, of the forward call
(`axios.post`), and whether the `updateWorkerStats` call on the success
path throws (a registry error). -/
structure DispatchScenario where
  entitiesOk : Bool
  relationsOk : Bool
  selected : Option Worker
  forwardOk : Bool
  statsThrows : Bool
deriving DecidableEq, Repr

/-- Observable effects of one run of the render dispatch handler:
the `updateWorkerConnections` deltas for the selected worker in call order,
the breaker calls, whether `updateWorkerStats` ran (and the success flag it
got), and the response class. -/
structure DispatchEffects where
  connUpdates : List Int
  recordedFailure : Bool
  recordedSuccess : Bool
  statsRecorded : Option Bool
  response : DispatchResp
deriving DecidableEq, Repr

/-- Embedding of the load-balanced render route's POST handler: validation,
selection, `updateWorkerConnections(worker.id, 1)`, forward, the inner
catch (`recordFailure`, decrement, 500 `WORKER_ERROR`), the post-success
bookkeeping (`recordSuccess`, `updateWorkerStats`, decrement, 200), and the
outer catch (500 `RENDER_ERROR`, no bookkeeping).  A throwing
`updateWorkerStats` on the success path lands in the outer catch before the
decrement runs. -/
def renderDispatch (s : DispatchScenario) : DispatchEffects :=
  if !s.entitiesOk then
    { connUpdates := [], recordedFailure := false, recordedSuccess := false,
      statsRecorded := none, response := DispatchResp.badRequest }
  else if !s.relationsOk then
    { connUpdates := [], recordedFailure := false, recordedSuccess := false,
      statsRecorded := none, response := DispatchResp.badRequest }
  else
    match s.selected with
    | none =>
        { connUpdates := [], recordedFailure := false, recordedSuccess := false,
          statsRecorded := none, response := DispatchResp.noWorker }
    | some _ =>
        if !s.forwardOk then
          { connUpdates := [1, -1], recordedFailure := true,
            recordedSuccess := false, statsRecorded := none,
            response := DispatchResp.workerError }
        else if s.statsThrows then
          { connUpdates := [1], recordedFailure := false,
            recordedSuccess := true, statsRecorded := none,
            response := DispatchResp.renderError }
        else
          { connUpdates := [1, -1], recordedFailure := false,
            recordedSuccess := true, statsRecorded := some true,
            response := DispatchResp.ok }

/-- Iterated weighted-round-robin selections over a fixed candidate list,
returning the selections in order and the final accumulators. -/
def wrrRun (workers : List Worker) (serviceType : String) :
    Nat → (WKey → Int) → List (Option Worker) × (WKey → Int)
  | 0, cw => ([], cw)
  | Nat.succ n, cw =>
      let r := weightedRoundRobin workers serviceType cw
      let rest := wrrRun workers serviceType n r.2
      (r.1 :: rest.1, rest.2)

/-- Iterated round-robin selections over a fixed candidate list. -/
def rrRun (workers : List Worker) (serviceType : String) :
    Nat → (String → Nat) → List (Option Worker) × (String → Nat)
  | 0, idx => ([], idx)
  | Nat.succ n, idx =>
      let r := roundRobin workers serviceType idx
      let rest := rrRun workers serviceType n r.2
      (r.1 :: rest.1, rest.2)

/-- A worker record for concrete scenarios. -/
def mkW (i : Nat) (nm : String) (wt cc art : Int) (st : WStatus) : Worker :=
  { id := i, name := nm, host := "127.0.0.1", port := 9000 + i,
    serviceType := "render", weight := wt, current_connections := cc,
    avg_response_time := art, status := st }

/-- Weight-3 candidate A of the weighted-round-robin scenario. -/
def wA : Worker := mkW 1 "A" 3 0 0 WStatus.online

/-- Weight-2 candidate B of the weighted-round-robin scenario. -/
def wB : Worker := mkW 2 "B" 2 0 0 WStatus.online

/-- Weight-1 candidate C of the weighted-round-robin scenario. -/
def wC : Worker := mkW 3 "C" 1 0 0 WStatus.online

/-- The single registered render worker of the retry scenario. -/
def w1render : Worker := mkW 1 "W1" 1 0 0 WStatus.online

/-- A balancer state in which worker 1 (the only render worker) has an open
breaker, and a further, older breaker entry exists for worker 2 — a worker
of some other service type. -/
def lbC1 : LoadBalancer :=
  { strategy := "weighted-round-robin"
    roundRobinIndex := fun _ => 0
    currentWeights := fun _ => 0
    circuitBreaker := [(2, 5, 0), (1, 5, 10)] }

/-- An offline render worker with no breaker entry. -/
def wOff : Worker := mkW 4 "Off" 1 0 0 WStatus.offline

/-- An online render worker, peer of the status-parametric candidate. -/
def wY : Worker := mkW 2 "Y" 1 0 0 WStatus.online

/-- A dispatch run whose forward succeeds but whose `updateWorkerStats`
call throws: the handler lands in the outer catch. -/
def c2FailingScenario : DispatchScenario :=
  { entitiesOk := true, relationsOk := true, selected := some w1render,
    forwardOk := true, statsThrows := true }

/-- A dispatch run whose forward call fails (timeout / connection refused /
transport error). -/
def c3FailingScenario : DispatchScenario :=
  { entitiesOk := true, relationsOk := true, selected := some w1render,
    forwardOk := false, statsThrows := false }

/-- C5: starting from zeroed accumulators, weighted round robin over the
fixed candidates A (weight 3), B (weight 2), C (weight 1) yields over 6
consecutive selections the interleaved sequence A,B,A,C,B,A — exactly 3 A's,
2 B's and 1 C, never the burst A,A,A,B,B,C; the third pick resolves the
accumulator tie between A and C in favour of A, the first candidate
reaching the maximum during the scan. -/
theorem c5_weighted_round_robin_interleaving :
    ((wrrRun [wA, wB, wC] "render" 6 (fun _ => 0)).1.map (Option.map Worker.id)
        = [some 1, some 2, some 1, some 3, some 2, some 1])
    ∧ ((wrrRun [wA, wB, wC] "render" 6 (fun _ => 0)).1.count (some wA) = 3
        ∧ (wrrRun [wA, wB, wC] "render" 6 (fun _ => 0)).1.count (some wB) = 2
        ∧ (wrrRun [wA, wB, wC] "render" 6 (fun _ => 0)).1.count (some wC) = 1)
    ∧ ((wrrRun [wA, wB, wC] "render" 6 (fun _ => 0)).1.map (Option.map Worker.id)
        ≠ [some 1, some 1, some 1, some 2, some 2, some 3]) := by
  refine ⟨by decide, ⟨by decide, by decide, by decide⟩, by decide⟩

/-- C7: round robin over a fixed list of 3 workers, from a fresh cursor,
yields over 9 consecutive selections the strict cyclic order
a,b,c,a,b,c,a,b,c starting with the first candidate, hence each worker
exactly 3 times. -/
theorem c7_round_robin_cycles :
    (∀ a b c : Worker,
      (rrRun [a, b, c] "render" 9 (fun _ => 0)).1
        = [some a, some b, some c, some a, some b, some c, some a, some b, some c])
    ∧ ((rrRun [wA, wB, wC] "render" 9 (fun _ => 0)).1.count (some wA) = 3
        ∧ (rrRun [wA, wB, wC] "render" 9 (fun _ => 0)).1.count (some wB) = 3
        ∧ (rrRun [wA, wB, wC] "render" 9 (fun _ => 0)).1.count (some wC) = 3) := by
  constructor
  · intro a b c
    simp [rrRun, roundRobin]
  · exact ⟨by decide, by decide, by decide⟩

/-- C9: `getLoadBalancer` is idempotent in its instance — the first call
constructs the singleton with the given strategy and every later call
returns that same instance, its strategy argument ignored, so the strategy
remains the one of the first call. -/
theorem c9_singleton_ignores_strategy (s1 s2 : String) :
    (getLoadBalancer s2 (getLoadBalancer s1 none).2).1
        = (getLoadBalancer s1 none).1
    ∧ (getLoadBalancer s2 (getLoadBalancer s1 none).2).1.strategy = s1 :=
  ⟨rfl, rfl⟩

/-- C2 (code evaluated at the failing input): when the forward succeeds but
`updateWorkerStats` throws, the handler exits through the outer catch with
the connection count incremented but never decremented — the net
connection delta of this dispatch is 1, not 0. -/
theorem c2_outer_catch_skips_decrement :
    renderDispatch c2FailingScenario
      = { connUpdates := [1], recordedFailure := false, recordedSuccess := true,
          statsRecorded := none, response := DispatchResp.renderError }
    ∧ (renderDispatch c2FailingScenario).connUpdates.sum ≠ 0 := by
  exact ⟨by decide, by decide⟩

/-- C3 (code evaluated at the failing input): on a failed forward the
handler records a breaker failure, decrements the connection count and
returns the 500 `WORKER_ERROR` reply carrying the cause — but it returns
from inside the catch before `updateWorkerStats` runs, so the failed
outcome and its elapsed time are never recorded in the worker's
statistics (`statsRecorded = none`). -/
theorem c3_failure_path_skips_stats :
    renderDispatch c3FailingScenario
      = { connUpdates := [1, -1], recordedFailure := true,
          recordedSuccess := false, statsRecorded := none,
          response := DispatchResp.workerError } := by decide

/-- C1 (counterexample): with one registered render worker whose breaker is
open and an older breaker entry belonging to a worker of another service
type, `selectWorker` runs the reset-oldest retry path twice — calling
`resetOldestCircuit` twice and retrying the eligibility filter twice, not
at most once — and then returns the worker instead of null. -/
theorem c1_counterexample :
    (selectWorker 20 [w1render] "render" lbC1).2.2 = 2
    ∧ ¬ (selectWorker 20 [w1render] "render" lbC1).2.2 ≤ 1
    ∧ (selectWorker 20 [w1render] "render" lbC1).1 = some w1render := by
  exact ⟨by decide, by decide, by decide⟩

/-- C6 (counterexample): the registry listing returns records of any status
and `selectWorker` filters only on the breaker, so an offline worker with
no breaker entry is selected. -/
theorem c6_counterexample :
    (selectWorker 0 [wOff] "render" (mkLoadBalancer "weighted-round-robin")).1
        = some wOff
    ∧ wOff.status = WStatus.offline := by
  exact ⟨by decide, by decide⟩

/-- C6 (amended): worker status plays no role in selection — whatever the
status of a listed candidate (offline included), it is selected exactly as
an online worker would be, and it does consume weighted-round-robin
accumulator budget (its accumulator is debited by the total weight while
its peer's accumulator grows). -/
theorem c6_status_ignored :
    ∀ st : WStatus,
      ((selectWorker 0 [mkW 1 "X" 1 0 0 st, wY] "render"
          (mkLoadBalancer "weighted-round-robin")).1 = some (mkW 1 "X" 1 0 0 st))
      ∧ ((selectWorker 0 [mkW 1 "X" 1 0 0 st, wY] "render"
          (mkLoadBalancer "weighted-round-robin")).2.1.currentWeights ("render", 1) = -1)
      ∧ ((selectWorker 0 [mkW 1 "X" 1 0 0 st, wY] "render"
          (mkLoadBalancer "weighted-round-robin")).2.1.currentWeights ("render", 2) = 1) := by
  intro st
  exact ⟨rfl, rfl, rfl⟩

/-- The `leastConnections` fold starting from `acc` returns a candidate no
worse than `acc` and than every scanned element, and that candidate is the
first element of `acc :: ws` attaining its connection count. -/
theorem lcFold_spec (ws : List Worker) : ∀ acc : Worker,
    ((ws.foldl lcStep acc).current_connections ≤ acc.current_connections
      ∧ ∀ x ∈ ws, (ws.foldl lcStep acc).current_connections ≤ x.current_connections)
    ∧ (acc :: ws).find?
        (fun x => x.current_connections == (ws.foldl lcStep acc).current_connections)
      = some (ws.foldl lcStep acc) := by
  induction ws with
  | nil =>
      intro acc
      refine ⟨⟨le_refl _, by simp⟩, ?_⟩
      simp [List.find?_cons]
  | cons y t ih =>
      intro acc
      by_cases hy : y.current_connections < acc.current_connections
      · have hstep : lcStep acc y = y := by simp [lcStep, hy]
        have hfold : (y :: t).foldl lcStep acc = t.foldl lcStep y := by
          simp [List.foldl_cons, hstep]
        obtain ⟨⟨h1, h2⟩, h3⟩ := ih y
        rw [hfold]
        refine ⟨⟨le_of_lt (lt_of_le_of_lt h1 hy), ?_⟩, ?_⟩
        · intro x hx
          rcases List.mem_cons.mp hx with h | h
          · subst h; exact h1
          · exact h2 x h
        · have hne : ¬ (acc.current_connections
              == (t.foldl lcStep y).current_connections) = true := by
            simp only [beq_iff_eq]
            intro he
            have := lt_of_le_of_lt h1 hy
            omega
          rw [@List.find?_cons_of_neg Worker
                (fun x => x.current_connections == (t.foldl lcStep y).current_connections)
                acc (y :: t) hne]
          exact h3
      · have hstep : lcStep acc y = acc := by simp [lcStep, hy]
        have hay : acc.current_connections ≤ y.current_connections := le_of_not_lt hy
        have hfold : (y :: t).foldl lcStep acc = t.foldl lcStep acc := by
          simp [List.foldl_cons, hstep]
        obtain ⟨⟨h1, h2⟩, h3⟩ := ih acc
        rw [hfold]
        refine ⟨⟨h1, ?_⟩, ?_⟩
        · intro x hx
          rcases List.mem_cons.mp hx with h | h
          · subst h; exact le_trans h1 hay
          · exact h2 x h
        · by_cases hacc : (acc.current_connections
              == (t.foldl lcStep acc).current_connections) = true
          · have h3p := h3
            rw [@List.find?_cons_of_pos Worker
                  (fun x => x.current_connections == (t.foldl lcStep acc).current_connections)
                  acc t hacc] at h3p
            rw [@List.find?_cons_of_pos Worker
                  (fun x => x.current_connections == (t.foldl lcStep acc).current_connections)
                  acc (y :: t) hacc]
            exact h3p
          · have hlt : (t.foldl lcStep acc).current_connections
                < acc.current_connections := by
              simp only [beq_iff_eq] at hacc
              omega
            have hny : ¬ (y.current_connections
                == (t.foldl lcStep acc).current_connections) = true := by
              simp only [beq_iff_eq]
              intro he
              omega
            rw [@List.find?_cons_of_neg Worker
                  (fun x => x.current_connections == (t.foldl lcStep acc).current_connections)
                  acc (y :: t) hacc,
                @List.find?_cons_of_neg Worker
                  (fun x => x.current_connections == (t.foldl lcStep acc).current_connections)
                  y t hny]
            have h3p := h3
            rw [@List.find?_cons_of_neg Worker
                  (fun x => x.current_connections == (t.foldl lcStep acc).current_connections)
                  acc t hacc] at h3p
            exact h3p

/-- C8: on every non-empty candidate list, `leastConnections` returns a
worker whose connection count is the minimum over all candidates, and that
worker is the first candidate (in input order) attaining the minimum. -/
theorem c8_least_connections_min_and_first (w : Worker) (ws : List Worker) :
    ∃ r, leastConnections (w :: ws) = some r
      ∧ (∀ x ∈ w :: ws, r.current_connections ≤ x.current_connections)
      ∧ (w :: ws).find? (fun x => x.current_connections == r.current_connections)
          = some r := by
  refine ⟨ws.foldl lcStep w, rfl, ?_, (lcFold_spec ws w).2⟩
  intro x hx
  rcases List.mem_cons.mp hx with h | h
  · rw [h]
    exact (lcFold_spec ws w).1.1
  · exact (lcFold_spec ws w).1.2 x h

/-- `recordFailure` on a worker with no entry appends a fresh entry with
count 1 and the current timestamp. -/
theorem lookupB_recordFailure_absent (now wid : Nat) (br : Breaker)
    (h : lookupB br wid = none) :
    lookupB (recordFailure now wid br) wid = some (1, now) := by
  induction br with
  | nil => simp [recordFailure, lookupB]
  | cons e es ih =>
      by_cases he : e.1 = wid
      · simp [lookupB, he] at h
      · simp only [lookupB, he, if_false] at h
        simp [recordFailure, lookupB, he, ih h]

/-- `recordFailure` on a worker with an entry increments its count and
refreshes its timestamp. -/
theorem lookupB_recordFailure_present (now wid : Nat) (br : Breaker)
    (c ts : Nat) (h : lookupB br wid = some (c, ts)) :
    lookupB (recordFailure now wid br) wid = some (c + 1, now) := by
  induction br with
  | nil => simp [lookupB] at h
  | cons e es ih =>
      by_cases he : e.1 = wid
      · simp only [lookupB, he, if_true] at h
        have h2 : e.2 = (c, ts) := by injection h
        simp [recordFailure, he, lookupB, h2]
      · simp only [lookupB, he, if_false] at h
        simp [recordFailure, lookupB, he, ih h]

/-- A sequence of `recordFailure` calls adds its length to the count and
leaves the timestamp of the last call. -/
theorem lookupB_foldl_recordFailure (wid : Nat) :
    ∀ (times : List Nat) (br : Breaker) (c ts : Nat),
      lookupB br wid = some (c, ts) →
      lookupB (times.foldl (fun b t => recordFailure t wid b) br) wid
        = some (c + times.length, times.getLastD ts) := by
  intro times
  induction times with
  | nil => intro br c ts h; simpa using h
  | cons t rest ih =>
      intro br c ts h
      have h1 := lookupB_recordFailure_present t wid br c ts h
      have h2 := ih (recordFailure t wid br) (c + 1) t h1
      have h3 : c + 1 + rest.length = c + (rest.length + 1) := by omega
      simp only [List.foldl_cons, List.length_cons, List.getLastD_cons]
      rw [h2, h3]

/-- Deleting a worker's entry really removes it. -/
theorem lookupB_eraseKey_self (wid : Nat) (br : Breaker) :
    lookupB (eraseKey wid br) wid = none := by
  induction br with
  | nil => rfl
  | cons e es ih =>
      by_cases he : e.1 = wid
      · simp [eraseKey, List.filter_cons, he] at ih ⊢
        exact ih
      · simp [eraseKey, List.filter_cons, he, lookupB] at ih ⊢
        exact ih

/-- C4: starting from a state with no entry for worker `W`, a sequence of
`recordFailure` calls at times `t0 :: rest` leaves count `rest.length + 1`
and last-failure time `rest.getLastD t0`; then (a) if the count reached the
threshold and the timeout has not elapsed since the last failure,
`isCircuitOpen` answers true and leaves the breaker unchanged; (b) once the
timeout has elapsed it answers false and deletes the entry; (c) after
`recordSuccess` it answers false; (d) with no entry it answers false;
(e) with the count below the threshold it answers false. -/
theorem c4_breaker_lifecycle (br0 : Breaker) (W now t0 : Nat)
    (rest : List Nat) (h0 : lookupB br0 W = none) :
    (breakerThreshold ≤ rest.length + 1 →
      now - rest.getLastD t0 < breakerTimeout →
      isCircuitOpen now W breakerThreshold breakerTimeout
          ((t0 :: rest).foldl (fun b t => recordFailure t W b) br0)
        = (true, (t0 :: rest).foldl (fun b t => recordFailure t W b) br0))
    ∧ (breakerThreshold ≤ rest.length + 1 →
      breakerTimeout ≤ now - rest.getLastD t0 →
      (isCircuitOpen now W breakerThreshold breakerTimeout
          ((t0 :: rest).foldl (fun b t => recordFailure t W b) br0)).1 = false
      ∧ lookupB (isCircuitOpen now W breakerThreshold breakerTimeout
          ((t0 :: rest).foldl (fun b t => recordFailure t W b) br0)).2 W = none)
    ∧ ((isCircuitOpen now W breakerThreshold breakerTimeout
        (recordSuccess W
          ((t0 :: rest).foldl (fun b t => recordFailure t W b) br0))).1 = false)
    ∧ ((isCircuitOpen now W breakerThreshold breakerTimeout br0).1 = false)
    ∧ (rest.length + 1 < breakerThreshold →
      (isCircuitOpen now W breakerThreshold breakerTimeout
          ((t0 :: rest).foldl (fun b t => recordFailure t W b) br0)).1 = false) := by
  have hb : lookupB ((t0 :: rest).foldl (fun b t => recordFailure t W b) br0) W
      = some (rest.length + 1, rest.getLastD t0) := by
    have h1 := lookupB_recordFailure_absent t0 W br0 h0
    have h2 := lookupB_foldl_recordFailure W rest (recordFailure t0 W br0) 1 t0 h1
    have h3 : 1 + rest.length = rest.length + 1 := by omega
    simp only [List.foldl_cons]
    rw [h2, h3]
  simp only [List.foldl_cons] at hb
  refine ⟨?_, ?_, ?_, ?_, ?_⟩
  · intro hth hto
    simp only [List.getLastD_eq_getLast?] at hto
    simp [isCircuitOpen, hb, hth, hto]
  · intro hth hto
    have hnlt : ¬ (now - rest.getLastD t0 < breakerTimeout) := not_lt.mpr hto
    simp only [List.getLastD_eq_getLast?] at hnlt
    constructor
    · simp [isCircuitOpen, hb, hth, hnlt]
    · simp [isCircuitOpen, hb, hth, hnlt, lookupB_eraseKey_self]
  · simp [isCircuitOpen, recordSuccess, lookupB_eraseKey_self]
  · simp [isCircuitOpen, h0]
  · intro hlt
    have hnth : ¬ (breakerThreshold ≤ rest.length + 1) := not_le.mpr hlt
    simp [isCircuitOpen, hb, hnth]

/-- Witness for `c4_breaker_lifecycle`: worker 7, five failures at times
10..50 starting from an empty breaker; queried at time 60 the breaker is
open and unchanged. -/
theorem c4_breaker_lifecycle_witness :
    isCircuitOpen 60 7 breakerThreshold breakerTimeout
        (([10, 20, 30, 40, 50] : List Nat).foldl (fun b t => recordFailure t 7 b) [])
      = (true, ([10, 20, 30, 40, 50] : List Nat).foldl
          (fun b t => recordFailure t 7 b) []) :=
  (c4_breaker_lifecycle [] 7 60 10 [20, 30, 40, 50] rfl).1 (by decide) (by decide)

/-- The weighted-round-robin scan leaves accumulators of ids that do not
occur among the scanned workers untouched. -/
theorem wrrScan_acc_of_not_mem (st : String) :
    ∀ (ws : List Worker) (acc : Int × Option (Worker × Int) × (WKey → Int))
      (x : Nat), (∀ w ∈ ws, w.id ≠ x) →
      (ws.foldl (wrrStep st) acc).2.2 (st, x) = acc.2.2 (st, x) := by
  intro ws
  induction ws with
  | nil => intro acc x _; rfl
  | cons y tl ih =>
      intro acc x hx
      have hy : y.id ≠ x := hx y (List.mem_cons_self y tl)
      have htl : ∀ w ∈ tl, w.id ≠ x := fun w hw => hx w (List.mem_cons_of_mem y hw)
      have hkey : ((st, x) : WKey) ≠ (st, y.id) := by
        intro hk
        injection hk with h1 h2
        exact hy h2.symm
      simp only [List.foldl_cons]
      rw [ih (wrrStep st acc y) x htl]
      simp [wrrStep, hkey]

/-- With pairwise distinct ids, the scan adds each candidate's static weight
to that candidate's accumulator. -/
theorem wrrScan_acc_of_mem (st : String) :
    ∀ (ws : List Worker) (acc : Int × Option (Worker × Int) × (WKey → Int)),
      (ws.map (fun w => w.id)).Nodup →
      ∀ w ∈ ws, (ws.foldl (wrrStep st) acc).2.2 (st, w.id)
        = acc.2.2 (st, w.id) + w.weight := by
  intro ws
  induction ws with
  | nil => intro acc _ w hw; simp at hw
  | cons y tl ih =>
      intro acc hnd w hw
      have hy : y.id ∉ tl.map (fun w => w.id) := by
        simp only [List.map_cons, List.nodup_cons] at hnd
        exact hnd.1
      have htl : (tl.map (fun w => w.id)).Nodup := by
        simp only [List.map_cons, List.nodup_cons] at hnd
        exact hnd.2
      rcases List.mem_cons.mp hw with hwy | hwtl
      · have hne : ∀ z ∈ tl, z.id ≠ y.id := by
          intro z hz hzc
          exact hy (hzc ▸ List.mem_map_of_mem (fun w => w.id) hz)
        simp only [List.foldl_cons]
        rw [hwy]
        rw [wrrScan_acc_of_not_mem st tl (wrrStep st acc y) y.id hne]
        simp [wrrStep]
      · have hwid : w.id ≠ y.id := by
          intro hc
          exact hy (hc ▸ List.mem_map_of_mem (fun w => w.id) hwtl)
        have hkey : ((st, w.id) : WKey) ≠ (st, y.id) := by
          intro hk
          injection hk with h1 h2
          exact hwid h2
        simp only [List.foldl_cons]
        rw [ih (wrrStep st acc y) htl w hwtl]
        simp [wrrStep, hkey]

/-- The scan's running total accumulates the candidates' static weights. -/
theorem wrrScan_total (st : String) :
    ∀ (ws : List Worker) (acc : Int × Option (Worker × Int) × (WKey → Int)),
      (ws.foldl (wrrStep st) acc).1 = acc.1 + (ws.map Worker.weight).sum := by
  intro ws
  induction ws with
  | nil => intro acc; simp
  | cons y tl ih =>
      intro acc
      simp only [List.foldl_cons]
      rw [ih (wrrStep st acc y)]
      simp only [wrrStep, List.map_cons, List.sum_cons]
      omega

/-- The scan's best candidate, when present, comes from the initial best or
from the scanned list. -/
theorem wrrScan_best_mem (st : String) :
    ∀ (ws : List Worker) (acc : Int × Option (Worker × Int) × (WKey → Int))
      (L : List Worker),
      (∀ q, acc.2.1 = some q → q.1 ∈ L) → (∀ w ∈ ws, w ∈ L) →
      ∀ q, (ws.foldl (wrrStep st) acc).2.1 = some q → q.1 ∈ L := by
  intro ws
  induction ws with
  | nil => intro acc L hacc _ q hq; exact hacc q hq
  | cons y tl ih =>
      intro acc L hacc hsub q hq
      have hyL : y ∈ L := hsub y (List.mem_cons_self y tl)
      have htl : ∀ w ∈ tl, w ∈ L := fun w hw => hsub w (List.mem_cons_of_mem y hw)
      simp only [List.foldl_cons] at hq
      refine ih (wrrStep st acc y) L ?_ htl q hq
      intro p hp
      rcases hbest : acc.2.1 with _ | b
      · simp only [wrrStep, hbest] at hp
        injection hp with hp1
        rw [← hp1]
        exact hyL
      · simp only [wrrStep, hbest] at hp
        by_cases hlt : b.2 < acc.2.2 (st, y.id) + y.weight
        · rw [if_pos hlt] at hp
          injection hp with hp1
          rw [← hp1]
          exact hyL
        · rw [if_neg hlt] at hp
          injection hp with hp1
          rw [← hp1]
          exact hacc b hbest

/-- Once the scan's best candidate is set it stays set. -/
theorem wrrScan_best_isSome (st : String) :
    ∀ (ws : List Worker) (acc : Int × Option (Worker × Int) × (WKey → Int)),
      acc.2.1.isSome → ((ws.foldl (wrrStep st) acc).2.1).isSome := by
  intro ws
  induction ws with
  | nil => intro acc h; exact h
  | cons y tl ih =>
      intro acc h
      simp only [List.foldl_cons]
      refine ih (wrrStep st acc y) ?_
      rcases hbest : acc.2.1 with _ | b
      · rw [hbest] at h; simp at h
      · simp only [wrrStep, hbest]
        by_cases hlt : b.2 < acc.2.2 (st, y.id) + y.weight
        · rw [if_pos hlt]; rfl
        · rw [if_neg hlt]; rfl

/-- On a non-empty candidate list the scan always produces a best
candidate (`maxWeight` starts at `-Infinity`). -/
theorem wrrScan_best_isSome_cons (st : String)
    (tl : List Worker) (acc : Int × Option (Worker × Int) × (WKey → Int))
    (y : Worker) :
    (((y :: tl).foldl (wrrStep st) acc).2.1).isSome := by
  simp only [List.foldl_cons]
  refine wrrScan_best_isSome st tl (wrrStep st acc y) ?_
  rcases hbest : acc.2.1 with _ | b
  · simp only [wrrStep, hbest]; rfl
  · simp only [wrrStep, hbest]
    by_cases hlt : b.2 < acc.2.2 (st, y.id) + y.weight
    · rw [if_pos hlt]; rfl
    · rw [if_neg hlt]; rfl

/-- Summing a pointwise update over a list with pairwise distinct ids
replaces exactly the updated worker's contribution. -/
theorem wrr_sum_update (st : String) :
    ∀ (l : List Worker) (f : WKey → Int) (bw : Worker) (v : Int),
      (l.map (fun w => w.id)).Nodup → bw ∈ l →
      (l.map (fun w =>
          if ((st, w.id) : WKey) = (st, bw.id) then v else f (st, w.id))).sum
        = (l.map (fun w => f (st, w.id))).sum - f (st, bw.id) + v := by
  intro l
  induction l with
  | nil => intro f bw v _ hb; simp at hb
  | cons y tl ih =>
      intro f bw v hnd hb
      have hy : y.id ∉ tl.map (fun w => w.id) := by
        simp only [List.map_cons, List.nodup_cons] at hnd
        exact hnd.1
      have htl : (tl.map (fun w => w.id)).Nodup := by
        simp only [List.map_cons, List.nodup_cons] at hnd
        exact hnd.2
      rcases List.mem_cons.mp hb with hby | hbtl
      · have hkey : (((st, y.id) : WKey) = (st, bw.id)) := by rw [hby]
        have htlsame : tl.map (fun w =>
            if ((st, w.id) : WKey) = (st, bw.id) then v else f (st, w.id))
            = tl.map (fun w => f (st, w.id)) := by
          refine List.map_congr_left ?_
          intro z hz
          have hzne : z.id ≠ bw.id := by
            intro hc
            rw [hby] at hc
            exact hy (hc ▸ List.mem_map_of_mem (fun w => w.id) hz)
          have : ¬ (((st, z.id) : WKey) = (st, bw.id)) := by
            intro hk
            injection hk with h1 h2
            exact hzne h2
          rw [if_neg this]
        simp only [List.map_cons, List.sum_cons, htlsame, if_pos hkey]
        have hfy : f (st, y.id) = f (st, bw.id) := by rw [hby]
        omega
      · have hbwid : bw.id ∈ tl.map (fun w => w.id) :=
          List.mem_map_of_mem (fun w => w.id) hbtl
        have hyne : y.id ≠ bw.id := by
          intro hc
          exact hy (hc ▸ hbwid)
        have hkey : ¬ (((st, y.id) : WKey) = (st, bw.id)) := by
          intro hk
          injection hk with h1 h2
          exact hyne h2
        simp only [List.map_cons, List.sum_cons, if_neg hkey]
        rw [ih f bw v htl hbtl]
        omega

/-- One `weightedRoundRobin` call preserves the sum of the candidates'
accumulators: the scan adds the total weight and the winner is debited the
same total. -/
theorem wrr_sum_invariant (st : String) (ws : List Worker) (cw : WKey → Int)
    (h : (ws.map (fun w => w.id)).Nodup) :
    (ws.map (fun w => (weightedRoundRobin ws st cw).2 (st, w.id))).sum
      = (ws.map (fun w => cw (st, w.id))).sum := by
  rcases hbest : (ws.foldl (wrrStep st)
      ((0 : Int), (none : Option (Worker × Int)), cw)).2.1 with _ | b
  · cases ws with
    | nil => simp [weightedRoundRobin]
    | cons y tl =>
        exfalso
        have hs := wrrScan_best_isSome_cons st tl
          ((0 : Int), (none : Option (Worker × Int)), cw) y
        rw [hbest] at hs
        simp at hs
  · have hmem : b.1 ∈ ws := by
      refine wrrScan_best_mem st ws
        ((0 : Int), (none : Option (Worker × Int)), cw) ws ?_ ?_ b hbest
      · intro q hq; simp at hq
      · intro w hw; exact hw
    have hfinal : (weightedRoundRobin ws st cw).2
        = fun k =>
            if k = (st, b.1.id) then
              (ws.foldl (wrrStep st)
                ((0 : Int), (none : Option (Worker × Int)), cw)).2.2 (st, b.1.id)
              - (ws.foldl (wrrStep st)
                  ((0 : Int), (none : Option (Worker × Int)), cw)).1
            else (ws.foldl (wrrStep st)
                ((0 : Int), (none : Option (Worker × Int)), cw)).2.2 k := by
      simp only [weightedRoundRobin]
      rw [hbest]
    have hmap : ws.map (fun w => (weightedRoundRobin ws st cw).2 (st, w.id))
        = ws.map (fun w =>
            if ((st, w.id) : WKey) = (st, b.1.id) then
              (ws.foldl (wrrStep st)
                ((0 : Int), (none : Option (Worker × Int)), cw)).2.2 (st, b.1.id)
              - (ws.foldl (wrrStep st)
                  ((0 : Int), (none : Option (Worker × Int)), cw)).1
            else (ws.foldl (wrrStep st)
                ((0 : Int), (none : Option (Worker × Int)), cw)).2.2 (st, w.id)) := by
      refine List.map_congr_left ?_
      intro w hw
      rw [hfinal]
    rw [hmap]
    rw [wrr_sum_update st ws _ b.1 _ h hmem]
    have hscan : (ws.map (fun w => (ws.foldl (wrrStep st)
        ((0 : Int), (none : Option (Worker × Int)), cw)).2.2 (st, w.id))).sum
        = (ws.map (fun w => cw (st, w.id))).sum + (ws.map Worker.weight).sum := by
      have hcongr : ws.map (fun w => (ws.foldl (wrrStep st)
          ((0 : Int), (none : Option (Worker × Int)), cw)).2.2 (st, w.id))
          = ws.map (fun w => cw (st, w.id) + w.weight) := by
        refine List.map_congr_left ?_
        intro w hw
        exact wrrScan_acc_of_mem st ws
          ((0 : Int), (none : Option (Worker × Int)), cw) h w hw
      rw [hcongr, List.sum_map_add]
    have htot := wrrScan_total st ws
      ((0 : Int), (none : Option (Worker × Int)), cw)
    omega

/-- Iterated weighted round robin from an all-zero accumulator state keeps
the accumulator sum at zero. -/
theorem wrrRun_sum_zero (st : String) (ws : List Worker)
    (h : (ws.map (fun w => w.id)).Nodup) :
    ∀ (n : Nat) (cw : WKey → Int),
      (ws.map (fun w => cw (st, w.id))).sum = 0 →
      (ws.map (fun w => (wrrRun ws st n cw).2 (st, w.id))).sum = 0 := by
  intro n
  induction n with
  | zero => intro cw h0; simpa [wrrRun] using h0
  | succ n ih =>
      intro cw h0
      simp only [wrrRun]
      refine ih (weightedRoundRobin ws st cw).2 ?_
      rw [wrr_sum_invariant st ws cw h]
      exact h0

/-- C10: with pairwise distinct candidate ids, every `weightedRoundRobin`
call leaves the sum of the candidates' current-weight accumulators
unchanged, and starting from all-zero accumulators that sum is 0 after
every number of consecutive selections. -/
theorem c10_wrr_accumulator_sum_invariant (st : String) (ws : List Worker)
    (cw : WKey → Int) (h : (ws.map (fun w => w.id)).Nodup) :
    ((ws.map (fun w => (weightedRoundRobin ws st cw).2 (st, w.id))).sum
        = (ws.map (fun w => cw (st, w.id))).sum)
    ∧ (∀ n, (ws.map (fun w =>
        (wrrRun ws st n (fun _ => 0)).2 (st, w.id))).sum = 0) := by
  constructor
  · exact wrr_sum_invariant st ws cw h
  · intro n
    refine wrrRun_sum_zero st ws h n (fun _ => 0) ?_
    simp

/-- Witness for `c10_wrr_accumulator_sum_invariant`: candidates A, B, C with
distinct ids and zero accumulators; after one selection the accumulator sum
over the candidates is still 0. -/
theorem c10_wrr_accumulator_sum_invariant_witness :
    (([wA, wB, wC].map (fun w =>
        (weightedRoundRobin [wA, wB, wC] "render" (fun _ => 0)).2
          ("render", w.id))).sum = 0) :=
  ((c10_wrr_accumulator_sum_invariant "render" [wA, wB, wC] (fun _ => 0)
      (by decide)).1).trans (by decide)

/-- An open verdict means an over-threshold entry inside the timeout
window. -/
theorem isCircuitOpen_true_elim (now wid th tmo : Nat) (br : Breaker)
    (h : (isCircuitOpen now wid th tmo br).1 = true) :
    ∃ c ts, lookupB br wid = some (c, ts) ∧ th ≤ c ∧ now - ts < tmo := by
  rcases hl : lookupB br wid with _ | p
  · simp [isCircuitOpen, hl] at h
  · rcases p with ⟨c, ts⟩
    by_cases h1 : th ≤ c
    · by_cases h2 : now - ts < tmo
      · exact ⟨c, ts, rfl, h1, h2⟩
      · simp [isCircuitOpen, hl, h1, h2] at h
    · simp [isCircuitOpen, hl, h1] at h

/-- An over-threshold entry inside the timeout window answers open and
leaves the breaker unchanged. -/
theorem isCircuitOpen_true_intro (now wid th tmo : Nat) (br : Breaker)
    (c ts : Nat) (hl : lookupB br wid = some (c, ts)) (h1 : th ≤ c)
    (h2 : now - ts < tmo) :
    isCircuitOpen now wid th tmo br = (true, br) := by
  simp [isCircuitOpen, hl, h1, h2]

/-- Deleting one worker's entry does not change lookups of other workers. -/
theorem lookupB_eraseKey_ne (x wid : Nat) (br : Breaker) (hne : wid ≠ x) :
    lookupB (eraseKey x br) wid = lookupB br wid := by
  induction br with
  | nil => rfl
  | cons e es ih =>
      by_cases hex : e.1 = x
      · have hew : ¬ (e.1 = wid) := by
          rw [hex]
          exact fun hc => hne hc.symm
        rw [show eraseKey x (e :: es) = eraseKey x es from by
              simp [eraseKey, List.filter_cons, hex]]
        rw [show lookupB (e :: es) wid = lookupB es wid from by
              simp [lookupB, hew]]
        exact ih
      · rw [show eraseKey x (e :: es) = e :: eraseKey x es from by
              simp [eraseKey, List.filter_cons, hex]]
        by_cases hew : e.1 = wid
        · simp [lookupB, hew]
        · simp [lookupB, hew]
          exact ih

/-- `isCircuitOpen` never grows the breaker map. -/
theorem isCircuitOpen_snd_length_le (now wid th tmo : Nat) (br : Breaker) :
    (isCircuitOpen now wid th tmo br).2.length ≤ br.length := by
  rcases hl : lookupB br wid with _ | p
  · simp [isCircuitOpen, hl]
  · by_cases h1 : th ≤ p.1
    · by_cases h2 : now - p.2 < tmo
      · simp [isCircuitOpen, hl, h1, h2]
      · simp only [isCircuitOpen, hl, if_pos h1, if_neg h2]
        simpa [eraseKey] using List.length_filter_le (fun e => decide (e.1 ≠ wid)) br
    · simp [isCircuitOpen, hl, h1]

/-- A worker whose breaker is open stays open through an `isCircuitOpen`
query on any worker (at the same instant): an open entry is never the one
deleted by expiry. -/
theorem isCircuitOpen_preserves_open (now wid x th tmo : Nat) (br : Breaker)
    (h : (isCircuitOpen now wid th tmo br).1 = true) :
    (isCircuitOpen now wid th tmo (isCircuitOpen now x th tmo br).2).1 = true := by
  obtain ⟨c, ts, hl, h1, h2⟩ := isCircuitOpen_true_elim now wid th tmo br h
  by_cases hwx : wid = x
  · rw [← hwx]
    rw [isCircuitOpen_true_intro now wid th tmo br c ts hl h1 h2]
    exact h
  · have hsnd : lookupB (isCircuitOpen now x th tmo br).2 wid = lookupB br wid := by
      rcases hlx : lookupB br x with _ | q
      · simp [isCircuitOpen, hlx]
      · by_cases hq1 : th ≤ q.1
        · by_cases hq2 : now - q.2 < tmo
          · simp [isCircuitOpen, hlx, hq1, hq2]
          · simp only [isCircuitOpen, hlx, if_pos hq1, if_neg hq2]
            exact lookupB_eraseKey_ne x wid br hwx
        · simp [isCircuitOpen, hlx, hq1]
    rw [isCircuitOpen_true_intro now wid th tmo (isCircuitOpen now x th tmo br).2
          c ts (by rw [hsnd]; exact hl) h1 h2]

/-- A worker whose breaker is open stays open through the whole
eligibility filter. -/
theorem filterAvailable_preserves_open (now wid : Nat) :
    ∀ (ws : List Worker) (br : Breaker),
      (isCircuitOpen now wid breakerThreshold breakerTimeout br).1 = true →
      (isCircuitOpen now wid breakerThreshold breakerTimeout
        (filterAvailable now ws br).2).1 = true := by
  intro ws
  induction ws with
  | nil => intro br h; exact h
  | cons w rest ih =>
      intro br h
      simp only [filterAvailable]
      exact ih _ (isCircuitOpen_preserves_open now wid w.id
        breakerThreshold breakerTimeout br h)

/-- An open verdict needs a non-empty breaker map. -/
theorem isCircuitOpen_true_ne_nil (now wid th tmo : Nat) (br : Breaker)
    (h : (isCircuitOpen now wid th tmo br).1 = true) : br ≠ [] := by
  obtain ⟨c, ts, hl, _, _⟩ := isCircuitOpen_true_elim now wid th tmo br h
  intro hbr
  rw [hbr] at hl
  simp [lookupB] at hl

/-- The eligibility filter never grows the breaker map. -/
theorem filterAvailable_snd_length_le (now : Nat) :
    ∀ (ws : List Worker) (br : Breaker),
      (filterAvailable now ws br).2.length ≤ br.length := by
  intro ws
  induction ws with
  | nil => intro br; exact le_refl _
  | cons w rest ih =>
      intro br
      simp only [filterAvailable]
      exact le_trans (ih _)
        (isCircuitOpen_snd_length_le now w.id breakerThreshold breakerTimeout br)

/-- When the filter rejects every worker of a non-empty candidate list, the
resulting breaker map is non-empty (the head's open entry is still
there). -/
theorem filterAvailable_all_open_ne_nil (now : Nat) (w : Worker)
    (ws : List Worker) (br : Breaker)
    (h : (filterAvailable now (w :: ws) br).1 = []) :
    (filterAvailable now (w :: ws) br).2 ≠ [] := by
  have hv : (isCircuitOpen now w.id breakerThreshold breakerTimeout br).1 = true := by
    by_contra hvf
    rw [Bool.not_eq_true] at hvf
    simp only [filterAvailable, hvf] at h
    simp at h
  obtain ⟨c, ts, hl, h1, h2⟩ :=
    isCircuitOpen_true_elim now w.id breakerThreshold breakerTimeout br hv
  have hsnd : (isCircuitOpen now w.id breakerThreshold breakerTimeout br).2 = br := by
    rw [isCircuitOpen_true_intro now w.id breakerThreshold breakerTimeout br
          c ts hl h1 h2]
  intro hnil
  have hopen2 := filterAvailable_preserves_open now w.id ws br hv
  refine isCircuitOpen_true_ne_nil now w.id breakerThreshold breakerTimeout _
    hopen2 ?_
  simp only [filterAvailable] at hnil
  rw [hsnd] at hnil
  exact hnil

/-- The key produced by the `resetOldestCircuit` scan occurs in the seed or
in the scanned entries. -/
theorem oldestAux_key_mem : ∀ (es : Breaker) (q : Nat × Nat),
    (oldestAux q es).1 = q.1 ∨ ∃ e ∈ es, (oldestAux q es).1 = e.1 := by
  intro es
  induction es with
  | nil => intro q; left; rfl
  | cons e es ih =>
      intro q
      simp only [oldestAux]
      rcases ih (if e.2.2 < q.2 then (e.1, e.2.2) else q) with h | h
      · by_cases he : e.2.2 < q.2
        · right
          exact ⟨e, List.mem_cons_self e es, by rw [h, if_pos he]⟩
        · left
          rw [h, if_neg he]
      · right
        obtain ⟨x, hx, hxe⟩ := h
        exact ⟨x, List.mem_cons_of_mem e hx, hxe⟩

/-- Deleting a key that occurs in the map strictly shrinks it. -/
theorem eraseKey_length_lt (k : Nat) :
    ∀ (br : Breaker), (∃ e ∈ br, e.1 = k) →
      (eraseKey k br).length < br.length := by
  intro br
  induction br with
  | nil =>
      intro h
      obtain ⟨e, he, _⟩ := h
      simp at he
  | cons e es ih =>
      intro h
      obtain ⟨x, hx, hxk⟩ := h
      by_cases hek : e.1 = k
      · have herase : eraseKey k (e :: es) = eraseKey k es := by
          simp [eraseKey, List.filter_cons, hek]
        rw [herase]
        have hle : (eraseKey k es).length ≤ es.length := by
          simpa [eraseKey] using
            List.length_filter_le (fun e => decide (e.1 ≠ k)) es
        simp only [List.length_cons]
        omega
      · rcases List.mem_cons.mp hx with hxe | hxes
        · exfalso
          rw [hxe] at hxk
          exact hek hxk
        · have herase : eraseKey k (e :: es) = e :: eraseKey k es := by
            simp [eraseKey, List.filter_cons, hek]
          rw [herase]
          simp only [List.length_cons]
          have := ih ⟨x, hxes, hxk⟩
          omega

/-- `resetOldestCircuit` strictly shrinks a non-empty breaker map. -/
theorem resetOldestCircuit_length_lt (br : Breaker) (h : br ≠ []) :
    (resetOldestCircuit br).length < br.length := by
  cases br with
  | nil => exact absurd rfl h
  | cons e es =>
      simp only [resetOldestCircuit, oldestEntry]
      refine eraseKey_length_lt _ _ ?_
      rcases oldestAux_key_mem es (e.1, e.2.2) with hk | hk
      · exact ⟨e, List.mem_cons_self e es, hk.symm⟩
      · obtain ⟨x, hx, hxe⟩ := hk
        exact ⟨x, List.mem_cons_of_mem e hx, hxe.symm⟩

/-- Round robin on a non-empty candidate list picks a worker. -/
theorem roundRobin_fst_isSome (ws : List Worker) (st : String)
    (idx : String → Nat) (h : ws ≠ []) : (roundRobin ws st idx).1.isSome := by
  have hlen : 0 < ws.length := List.length_pos.mpr h
  have hm : idx st % ws.length < ws.length := Nat.mod_lt _ hlen
  simp [roundRobin, List.getElem?_eq_getElem hm]

/-- Least connections on a non-empty candidate list picks a worker. -/
theorem leastConnections_isSome (ws : List Worker) (h : ws ≠ []) :
    (leastConnections ws).isSome := by
  cases ws with
  | nil => exact absurd rfl h
  | cons w rest => rfl

/-- Response time on a non-empty candidate list picks a worker. -/
theorem responseTime_isSome (ws : List Worker) (h : ws ≠ []) :
    (responseTime ws).isSome := by
  cases ws with
  | nil => exact absurd rfl h
  | cons w rest => rfl

/-- Weighted round robin on a non-empty candidate list picks a worker. -/
theorem weightedRoundRobin_fst_isSome (ws : List Worker) (st : String)
    (cw : WKey → Int) (h : ws ≠ []) :
    (weightedRoundRobin ws st cw).1.isSome := by
  cases ws with
  | nil => exact absurd rfl h
  | cons y tl =>
      have hb := wrrScan_best_isSome_cons st tl
        ((0 : Int), (none : Option (Worker × Int)), cw) y
      rcases hbest : ((y :: tl).foldl (wrrStep st)
          ((0 : Int), (none : Option (Worker × Int)), cw)).2.1 with _ | b
      · rw [hbest] at hb
        simp at hb
      · simp only [weightedRoundRobin]
        rw [hbest]
        rfl

/-- Every strategy branch of `selectWorker` picks a worker from a non-empty
candidate list. -/
theorem applyStrategy_fst_isSome (lb : LoadBalancer) (ws : List Worker)
    (st : String) (h : ws ≠ []) : (applyStrategy lb ws st).1.isSome := by
  by_cases h1 : lb.strategy = "round-robin"
  · simp only [applyStrategy, if_pos h1]
    exact roundRobin_fst_isSome ws st lb.roundRobinIndex h
  · by_cases h2 : lb.strategy = "least-connections"
    · simp only [applyStrategy, if_neg h1, if_pos h2]
      exact leastConnections_isSome ws h
    · by_cases h3 : lb.strategy = "response-time"
      · simp only [applyStrategy, if_neg h1, if_neg h2, if_pos h3]
        exact responseTime_isSome ws h
      · simp only [applyStrategy, if_neg h1, if_neg h2, if_neg h3]
        exact weightedRoundRobin_fst_isSome ws st lb.currentWeights h

/-- One unit of fuel per breaker entry (plus one) makes `selectWorkerFuel`
total: it returns, and returns a worker whenever the registry listing is
non-empty — each pass of the all-open branch strictly shrinks the breaker
map. -/
theorem selectWorkerFuel_total (now : Nat) (registry : List Worker)
    (st : String) :
    ∀ (fuel : Nat) (lb : LoadBalancer), lb.circuitBreaker.length < fuel →
      ∃ r, selectWorkerFuel now registry st fuel lb = some r
        ∧ (getWorkersByService registry st ≠ [] → r.1.isSome) := by
  intro fuel
  induction fuel with
  | zero =>
      intro lb hlen
      exact absurd hlen (Nat.not_lt_zero _)
  | succ fuel ih =>
      intro lb hlen
      by_cases hw : (getWorkersByService registry st).isEmpty = true
      · refine ⟨(none, lb, 0), ?_, ?_⟩
        · simp [selectWorkerFuel, hw]
        · intro hne
          exact absurd (List.isEmpty_iff.mp hw) hne
      · have hwne : getWorkersByService registry st ≠ [] := by
          intro hc
          exact hw (by simp [hc])
        by_cases ha : (filterAvailable now (getWorkersByService registry st)
            lb.circuitBreaker).1.isEmpty = true
        · obtain ⟨w, rest, hws⟩ :
              ∃ w rest, getWorkersByService registry st = w :: rest := by
            rcases hq : getWorkersByService registry st with _ | ⟨w, rest⟩
            · exact absurd hq hwne
            · exact ⟨w, rest, rfl⟩
          have hfane : (filterAvailable now (getWorkersByService registry st)
              lb.circuitBreaker).2 ≠ [] := by
            rw [hws]
            refine filterAvailable_all_open_ne_nil now w rest lb.circuitBreaker ?_
            rw [← hws]
            exact List.isEmpty_iff.mp ha
          have hlt : (resetOldestCircuit (filterAvailable now
              (getWorkersByService registry st) lb.circuitBreaker).2).length
              < fuel := by
            have hr1 := resetOldestCircuit_length_lt _ hfane
            have hr2 := filterAvailable_snd_length_le now
              (getWorkersByService registry st) lb.circuitBreaker
            omega
          obtain ⟨r, hr, hrs⟩ := ih
            { lb with circuitBreaker := resetOldestCircuit (filterAvailable now
                (getWorkersByService registry st) lb.circuitBreaker).2 }
            hlt
          refine ⟨(r.1, r.2.1, r.2.2 + 1), ?_, fun hne => hrs hne⟩
          simp only [selectWorkerFuel, if_neg hw, if_pos ha]
          rw [hr]
        · have hane : (filterAvailable now (getWorkersByService registry st)
              lb.circuitBreaker).1 ≠ [] := by
            intro hc
            exact ha (by simp [hc])
          refine ⟨((applyStrategy
              { lb with circuitBreaker := (filterAvailable now
                  (getWorkersByService registry st) lb.circuitBreaker).2 }
              (filterAvailable now (getWorkersByService registry st)
                lb.circuitBreaker).1 st).1,
            (applyStrategy
              { lb with circuitBreaker := (filterAvailable now
                  (getWorkersByService registry st) lb.circuitBreaker).2 }
              (filterAvailable now (getWorkersByService registry st)
                lb.circuitBreaker).1 st).2, 0), ?_, ?_⟩
          · simp only [selectWorkerFuel, if_neg hw, if_neg ha]
          · intro hne
            exact applyStrategy_fst_isSome _ _ _ hane

/-- C1 (amended): whenever the registry listing for the service type is
non-empty, `selectWorker` terminates — fuel of one unit per breaker entry
plus one never runs out, because each pass of the all-open branch deletes a
breaker entry — and returns a worker, never null; it may call
`resetOldestCircuit` and retry the eligibility filter several times (up to
the number of breaker entries), not at most once. -/
theorem c1_selectWorker_terminates (now : Nat) (registry : List Worker)
    (st : String) (lb : LoadBalancer)
    (h : getWorkersByService registry st ≠ []) :
    (selectWorkerFuel now registry st (lb.circuitBreaker.length + 1) lb).isSome
    ∧ (selectWorker now registry st lb).1.isSome := by
  obtain ⟨r, hr, hrs⟩ := selectWorkerFuel_total now registry st
    (lb.circuitBreaker.length + 1) lb (by omega)
  constructor
  · rw [hr]
    rfl
  · simp only [selectWorker, hr, Option.getD_some]
    exact hrs h

/-- Witness for `c1_selectWorker_terminates`: the retry scenario of the
counterexample — one render worker, two breaker entries — terminates and
yields a worker. -/
theorem c1_selectWorker_terminates_witness :
    (selectWorkerFuel 20 [w1render] "render"
        (lbC1.circuitBreaker.length + 1) lbC1).isSome
    ∧ (selectWorker 20 [w1render] "render" lbC1).1.isSome :=
  c1_selectWorker_terminates 20 [w1render] "render" lbC1 (by decide)
